import Mathlib

/-!
Verification of the Lamport distributed-lock peer (process.c).

Shallow embedding: every mutex-protected C function on the peer's shared
state (Lamport clock, request queue, ack table, release table) becomes a
pure Lean function on an explicit state; the concurrent system of N peers
plus the in-flight messages becomes a small-step transition system in which
each handler invocation is one atomic step (each C handler body is a short
sequence of individually mutex-protected operations) and the network is a
bag of (destination, message) pairs delivered in arbitrary order (each
outbound message travels on its own short-lived TCP connection read by its
own detached thread, so no inter-message ordering is guaranteed).

C ints are modelled as Int (no execution here comes near overflow).
-/

/-- MAX_PEERS from process.c. -/
def MAX_PEERS : Int := 128

/-- inc_lc (process.c lines 52-58): lc++ and return the new value.
State-passing: input is the clock, output is (new clock, returned value). -/
def inc_lc (lc : Int) : Int × Int :=
  (lc + 1, lc + 1)

/-- update_lc_on_receive (process.c lines 59-65): if remote_lc >= lc then
lc = remote_lc + 1; return the (possibly updated) clock. -/
def update_lc_on_receive (remote_lc lc : Int) : Int × Int :=
  if remote_lc ≥ lc then (remote_lc + 1, remote_lc + 1) else (lc, lc)

/-- queue_insert (process.c lines 76-88): walk the sorted list past every
entry that is strictly smaller in (req_lc, req_pid) lexicographic order and
link the new entry there. -/
def queue_insert (req_lc req_pid : Int) : List (Int × Int) → List (Int × Int)
  | [] => [(req_lc, req_pid)]
  | e :: rest =>
    if e.1 < req_lc ∨ (e.1 = req_lc ∧ e.2 < req_pid) then
      e :: queue_insert req_lc req_pid rest
    else
      (req_lc, req_pid) :: e :: rest

/-- queue_remove (process.c lines 90-103): unlink the first exact
(req_lc, req_pid) match, if any. -/
def queue_remove (req_lc req_pid : Int) : List (Int × Int) → List (Int × Int)
  | [] => []
  | e :: rest =>
    if e.1 = req_lc ∧ e.2 = req_pid then rest
    else e :: queue_remove req_lc req_pid rest

/-- queue_head_is (process.c lines 105-111): the queue is non-empty and its
first entry equals (req_lc, req_pid). -/
def queue_head_is (req_lc req_pid : Int) : List (Int × Int) → Bool
  | [] => false
  | e :: _ => decide (e.1 = req_lc ∧ e.2 = req_pid)

/-- set_ack (process.c lines 116-121): bounds-guarded write into ack_lc.
The table is modelled as a total function from C int indices. -/
def set_ack (sender value : Int) (a : Int → Int) : Int → Int :=
  if sender < 0 ∨ MAX_PEERS ≤ sender then a
  else fun j => if j = sender then value else a j

/-- all_acks_ge (process.c lines 122-129): every ack_lc[i] for i in [0,N)
is at least target_lc. -/
def all_acks_ge (n : Nat) (target_lc : Int) (a : Int → Int) : Bool :=
  (List.range n).all fun i => decide (¬ a (i : Int) < target_lc)

/-- inc_release_seen (process.c lines 134-139): bounds-guarded increment of
releases_seen[pid]. -/
def inc_release_seen (pid : Int) (r : Int → Int) : Int → Int :=
  if pid < 0 ∨ MAX_PEERS ≤ pid then r
  else fun j => if j = pid then r pid + 1 else r j

/-- get_release_seen (process.c lines 140-146): bounds-guarded read of
releases_seen[pid]; 0 for an out-of-range pid. -/
def get_release_seen (pid : Int) (r : Int → Int) : Int :=
  if pid < 0 ∨ MAX_PEERS ≤ pid then 0 else r pid

/-- The shared mutable state of one peer process: Lamport clock lc, request
queue, ack table ack_lc, release table releases_seen. -/
structure PState where
  lc : Int
  queue : List (Int × Int)
  ack : Int → Int
  rel : Int → Int

/-- A parsed protocol message (the integer payload of one wire line). -/
inductive Msg where
  | hello (pid : Int)
  | req (ts pid : Int)
  | ack (ackTs ackerPid forTs forPid : Int)
  | rel (relTs reqTs reqPid : Int)
deriving DecidableEq, Repr

/-- REQ branch of process_line (process.c lines 264-273): observe the
timestamp, insert the request, tick, and send an ACK back to the requester.
The outbound sends are returned as (destination pid, message) pairs. -/
def handle_req (me req_lc req_pid : Int) (st : PState) : PState × List (Int × Msg) :=
  let st := { st with lc := (update_lc_on_receive req_lc st.lc).1 }
  let st := { st with queue := queue_insert req_lc req_pid st.queue }
  let r := inc_lc st.lc
  let st := { st with lc := r.1 }
  let mylc := r.2
  (st, [(req_pid, Msg.ack mylc me req_lc req_pid)])

/-- ACK branch of process_line (process.c lines 274-278): observe the
timestamp; record the ack only when it is addressed to this peer. -/
def handle_ack (me ack_l sender for_req_pid : Int) (st : PState) : PState :=
  let st := { st with lc := (update_lc_on_receive ack_l st.lc).1 }
  if for_req_pid = me then { st with ack := set_ack sender ack_l st.ack } else st

/-- REL branch of process_line (process.c lines 279-284): observe the
timestamp, remove the released request, count the release. -/
def handle_rel (rel_lc req_lc req_pid : Int) (st : PState) : PState :=
  let st := { st with lc := (update_lc_on_receive rel_lc st.lc).1 }
  let st := { st with queue := queue_remove req_lc req_pid st.queue }
  { st with rel := inc_release_seen req_pid st.rel }

/-- process_line (process.c lines 257-285).  sscanf assigns the type token
and then as many of a,b,c,d as the line provides; variables beyond the
parsed count keep their indeterminate stack values, passed here explicitly
as j1..j4.  nums is the list of integers sscanf did parse.  (The sscanf
guard only requires the type token itself: any recognized type is then
handled with whatever mixture of parsed and indeterminate fields results.) -/
def process_line (me : Int) (ty : String) (nums : List Int)
    (j1 j2 j3 j4 : Int) (st : PState) : PState × List (Int × Msg) :=
  let a := nums.getD 0 j1
  let b := nums.getD 1 j2
  let c := nums.getD 2 j3
  let d := nums.getD 3 j4
  if ty = "HELLO" then (st, [])
  else if ty = "REQ" then handle_req me a b st
  else if ty = "ACK" then (handle_ack me a b d st, [])
  else if ty = "REL" then (handle_rel a b c st, [])
  else (st, [])

/-- The type token and integer fields a fully formed message carries on the
wire (grammar of process.c: HELLO p / REQ ts pid / ACK a b c d / REL a b c). -/
def msg_fields : Msg → String × List Int
  | .hello pid => ("HELLO", [pid])
  | .req ts pid => ("REQ", [ts, pid])
  | .ack a b c d => ("ACK", [a, b, c, d])
  | .rel a b c => ("REL", [a, b, c])

/-- Handler dispatch on an already-parsed message; agrees with process_line
on every fully formed line (lemma process_msg_eq_process_line below). -/
def process_msg (me : Int) (m : Msg) (st : PState) : PState × List (Int × Msg) :=
  match m with
  | .hello _ => (st, [])
  | .req ts pid => handle_req me ts pid st
  | .ack a b _ d => (handle_ack me a b d st, [])
  | .rel a b c => (handle_rel a b c st, [])

/-- The ack-table reset at the start of do_request (process.c lines
292-295): every entry for peers 0..N-1 becomes the sentinel -1000000000,
then the self entry becomes the own request timestamp (self-ack). -/
def reset_acks (me t : Int) (n : Nat) (a : Int → Int) : Int → Int :=
  fun j => if j = me then t else if 0 ≤ j ∧ j < (n : Int) then -1000000000 else a j

/-- The busy-wait loop body of do_wait (process.c lines 326-333), with the
release table it reads at the k-th poll given by the environment sigma
(handler threads mutate it concurrently).  Fuel-indexed: some k means the
loop exits right after the k-th poll, none means it was still spinning. -/
def do_wait_loop (other seen : Int) (sigma : Nat → (Int → Int)) : Nat → Nat → Option Nat
  | _, 0 => none
  | k, fuel + 1 =>
    if seen < get_release_seen other (sigma k) then some k
    else do_wait_loop other seen sigma (k + 1) fuel

/-- do_wait (process.c lines 326-333): snapshot the release counter of
other_pid from the entry-time table, then poll until a strictly larger
value is observed. -/
def do_wait (other : Int) (entry : Int → Int) (sigma : Nat → (Int → Int))
    (fuel : Nat) : Option Nat :=
  do_wait_loop other (get_release_seen other entry) sigma 0 fuel

/-- Where a peer's local lock state machine stands (do_request, process.c
lines 288-323): idle, polling for the grant of its request ts, or executing
the critical section for request ts. -/
inductive Phase where
  | idle
  | waiting (ts : Int)
  | critical (ts : Int)
deriving DecidableEq, Repr

/-- One peer: its shared state plus its lock-state-machine phase. -/
structure Peer where
  st : PState
  phase : Phase

/-- A system configuration: the peers (peer i at list position i) and the
in-flight (destination, message) pairs.  Delivery order is unconstrained:
every message rides its own short-lived connection. -/
structure Config where
  peers : List Peer
  net : List (Int × Msg)

/-- The atomic events of the system: deliver the k-th in-flight message to
its destination, or peer p performing one stage of its do_request cycle
(start = lines 289-299, enter = the grant test of lines 302-306 succeeding,
release = lines 317-321), or the bootstrap HELLO of connector_thread. -/
inductive Act where
  | deliver (k : Nat)
  | start (p : Nat)
  | enter (p : Nat)
  | free (p : Nat)
  | sendHello (p q : Nat)
deriving DecidableEq, Repr

/-- send_short's destination guard (process.c lines 149-150): messages to a
pid outside [0,N) are silently dropped. -/
def valid_dest (n : Nat) (dm : Int × Msg) : Bool :=
  decide (0 ≤ dm.1 ∧ dm.1 < (n : Int))

/-- broadcast_short (process.c lines 173-178): one copy of the message to
every peer other than self. -/
def broadcast (n me : Nat) (m : Msg) : List (Int × Msg) :=
  ((List.range n).filter fun i => i ≠ me).map fun i : Nat => ((i : Int), m)

/-- The peer state right after the request-issuing stage of do_request
(process.c lines 289-299): tick, insert own request, reset acks with
self-ack, move to the waiting phase. -/
def started_peer (p n : Nat) (peer : Peer) : Peer :=
  { st := { peer.st with
      lc := peer.st.lc + 1,
      queue := queue_insert (peer.st.lc + 1) (p : Int) peer.st.queue,
      ack := reset_acks (p : Int) (peer.st.lc + 1) n peer.st.ack },
    phase := Phase.waiting (peer.st.lc + 1) }

/-- The peer state right after the release stage of do_request (process.c
lines 317-321): remove own request, tick, count own release, back to idle. -/
def freed_peer (p : Nat) (ts : Int) (peer : Peer) : Peer :=
  { st := { peer.st with
      lc := peer.st.lc + 1,
      queue := queue_remove ts (p : Int) peer.st.queue,
      rel := inc_release_seen (p : Int) peer.st.rel },
    phase := Phase.idle }

/-- One atomic step of the system, if the action is enabled. -/
def stepAct (c : Config) : Act → Option Config
  | .deliver k =>
    match c.net.get? k with
    | none => none
    | some dm =>
      if h : 0 ≤ dm.1 ∧ dm.1.toNat < c.peers.length then
        let p := c.peers.get ⟨dm.1.toNat, h.2⟩
        let r := process_msg dm.1 dm.2 p.st
        some { peers := c.peers.set dm.1.toNat { p with st := r.1 },
               net := c.net.eraseIdx k ++ r.2.filter (valid_dest c.peers.length) }
      else none
  | .start p =>
    match c.peers.get? p with
    | none => none
    | some peer =>
      if peer.phase = Phase.idle then
        let n := c.peers.length
        let r := inc_lc peer.st.lc
        let my_req_lc := r.2
        let st := { peer.st with
          lc := r.1,
          queue := queue_insert my_req_lc (p : Int) peer.st.queue,
          ack := reset_acks (p : Int) my_req_lc n peer.st.ack }
        some { peers := c.peers.set p { st := st, phase := Phase.waiting my_req_lc },
               net := c.net ++ broadcast n p (Msg.req my_req_lc (p : Int)) }
      else none
  | .enter p =>
    match c.peers.get? p with
    | none => none
    | some peer =>
      match peer.phase with
      | Phase.waiting ts =>
        if queue_head_is ts (p : Int) peer.st.queue
            && all_acks_ge c.peers.length ts peer.st.ack then
          some { c with peers := c.peers.set p { peer with phase := Phase.critical ts } }
        else none
      | _ => none
  | .free p =>
    match c.peers.get? p with
    | none => none
    | some peer =>
      match peer.phase with
      | Phase.critical ts =>
        let n := c.peers.length
        let st := { peer.st with queue := queue_remove ts (p : Int) peer.st.queue }
        let r := inc_lc st.lc
        let rel_l := r.2
        let st := { st with lc := r.1, rel := inc_release_seen (p : Int) st.rel }
        some { peers := c.peers.set p { st := st, phase := Phase.idle },
               net := c.net ++ broadcast n p (Msg.rel rel_l ts (p : Int)) }
      | _ => none
  | .sendHello p q =>
    if p < c.peers.length ∧ q < c.peers.length ∧ p ≠ q then
      some { c with net := c.net ++ [((q : Int), Msg.hello (p : Int))] }
    else none

/-- A step is any enabled action. -/
def Step (c c2 : Config) : Prop := ∃ a, stepAct c a = some c2

/-- Startup state of one peer: clock 0, empty queue, zeroed tables (the C
globals are zero-initialized and releases_seen is explicitly zeroed). -/
def initPeer : Peer :=
  { st := { lc := 0, queue := [], ack := fun _ => 0, rel := fun _ => 0 },
    phase := Phase.idle }

/-- Startup configuration of an N-peer system. -/
def initConfig (n : Nat) : Config :=
  { peers := List.replicate n initPeer, net := [] }

/-- Run a list of actions from a configuration; none if any is disabled. -/
def runActs (c : Config) : List Act → Option Config
  | [] => some c
  | a :: rest =>
    match stepAct c a with
    | none => none
    | some c2 => runActs c2 rest

/-- A configuration reachable from the N-peer startup state. -/
def Reachable (n : Nat) (c : Config) : Prop :=
  Relation.ReflTransGen Step (initConfig n) c

/-- A concrete peer state for instantiating theorems: clock 0, empty queue,
zeroed tables (the state right after startup). -/
def st0 : PState := { lc := 0, queue := [], ack := fun _ => 0, rel := fun _ => 0 }

/-- An execution of two peers that both issue one Lock: both request at
timestamp 1; peer 0's REQ to peer 1 rides a connection whose reader thread
is scheduled late, so peer 1 sees only peer 0's ACK, enters the critical
section, and only then processes the delayed REQ — whose ACK then lets
peer 0 enter as well. -/
def c1Acts : List Act :=
  [Act.start 0, Act.start 1, Act.deliver 1, Act.deliver 1, Act.enter 1,
   Act.deliver 0, Act.deliver 0, Act.enter 0]

/-- The configuration reached by c1Acts. -/
def c1Final : Config := (runActs (initConfig 2) c1Acts).getD (initConfig 2)

/-- An execution where peer 1 completes one full Lock cycle and then issues
a second Lock; its REL from the first cycle reaches peer 0 only after the
second REQ does, leaving peer 0's queue with two entries for peer 1. -/
def c5Acts : List Act :=
  [Act.start 1, Act.deliver 0, Act.deliver 0, Act.enter 1, Act.free 1,
   Act.start 1, Act.deliver 1]

/-- The configuration reached by c5Acts. -/
def c5Final : Config := (runActs (initConfig 2) c5Acts).getD (initConfig 2)

/-- A small reachable configuration (peer 0 just issued its request). -/
def cW : Config := (runActs (initConfig 2) [Act.start 0]).getD (initConfig 2)

/-- Occurrence count of x in a list (used by the queue-uniqueness
invariant; a with-decidable-equality counting function). -/
def cnt {α : Type} [DecidableEq α] (x : α) : List α → Nat
  | [] => 0
  | y :: l => (if y = x then 1 else 0) + cnt x l

/-- Key (ts, pid) is live in configuration c: a REQ carrying it is in
flight, or some peer's queue holds it. -/
def KeyIn (c : Config) (ts pid : Int) : Prop :=
  (∃ d, (d, Msg.req ts pid) ∈ c.net) ∨ ∃ pr ∈ c.peers, (ts, pid) ∈ pr.st.queue

/-- Every live key belongs to a real peer and is bounded by that peer's
clock (a peer's clock never falls below any timestamp it has issued). -/
def Fresh (c : Config) : Prop :=
  ∀ ts pid, KeyIn c ts pid →
    ∃ pr, c.peers.get? pid.toNat = some pr ∧ 0 ≤ pid ∧ ts ≤ pr.st.lc

/-- For every peer i and key: at most one copy of the key exists for i,
counting the in-flight REQs addressed to i and the entries of i's queue. -/
def AtMostOne (c : Config) : Prop :=
  ∀ (i : Nat) (pr : Peer), c.peers.get? i = some pr → ∀ ts pid : Int,
    cnt ((i : Int), Msg.req ts pid) c.net + cnt (ts, pid) pr.st.queue ≤ 1

/-- The inductive invariant behind queue key uniqueness. -/
def SysInv (c : Config) : Prop := Fresh c ∧ AtMostOne c

/-- Lexicographic order on queue keys: ascending timestamp, ties broken by
ascending peerId. -/
def keyLe (x y : Int × Int) : Prop :=
  x.1 < y.1 ∨ (x.1 = y.1 ∧ x.2 ≤ y.2)

instance : DecidablePred fun p : (Int × Int) × (Int × Int) => keyLe p.1 p.2 :=
  fun _ => by unfold keyLe; infer_instance

instance (x y : Int × Int) : Decidable (keyLe x y) := by unfold keyLe; infer_instance

-- Helper lemmas ------------------------------------------------------------

theorem process_msg_eq_process_line (me : Int) (m : Msg) (j1 j2 j3 j4 : Int)
    (st : PState) :
    process_msg me m st
      = process_line me (msg_fields m).1 (msg_fields m).2 j1 j2 j3 j4 st := by
  cases m <;> rfl

theorem queue_insert_perm (req_lc req_pid : Int) (l : List (Int × Int)) :
    List.Perm (queue_insert req_lc req_pid l) ((req_lc, req_pid) :: l) := by
  induction l with
  | nil => simp [queue_insert]
  | cons e rest ih =>
    by_cases h : e.1 < req_lc ∨ (e.1 = req_lc ∧ e.2 < req_pid)
    · simpa [queue_insert, h] using (ih.cons e).trans (List.Perm.swap _ _ _)
    · simp [queue_insert, h]

theorem queue_remove_sublist (req_lc req_pid : Int) (l : List (Int × Int)) :
    (queue_remove req_lc req_pid l).Sublist l := by
  induction l with
  | nil => simp [queue_remove]
  | cons e rest ih =>
    by_cases h : e.1 = req_lc ∧ e.2 = req_pid
    · simp only [queue_remove, if_pos h]
      exact List.sublist_cons_self e rest
    · simpa [queue_remove, h] using ih.cons₂ e

/-- C7: for every queue state Q and every key (ts, peerId), queue_insert of
that key followed by queue_remove of the same key restores exactly the
contents of Q — including when Q already holds an entry with that key
(insert links the new node in front of any equal entry, and remove unlinks
the first exact match, which is therefore the inserted one) and including
the empty queue. -/
theorem C7_insert_remove_roundtrip (req_lc req_pid : Int) (l : List (Int × Int)) :
    queue_remove req_lc req_pid (queue_insert req_lc req_pid l) = l := by
  induction l with
  | nil => simp [queue_insert, queue_remove]
  | cons e rest ih =>
    by_cases h : e.1 < req_lc ∨ (e.1 = req_lc ∧ e.2 < req_pid)
    · have hne : ¬ (e.1 = req_lc ∧ e.2 = req_pid) := by
        rcases h with h | ⟨h1, h2⟩
        · rintro ⟨rfl, -⟩; exact absurd h (lt_irrefl _)
        · rintro ⟨-, rfl⟩; exact absurd h2 (lt_irrefl _)
      simp [queue_insert, h, queue_remove, hne, ih]
    · simp [queue_insert, h, queue_remove]


theorem runActs_reachable :
    ∀ (acts : List Act) (c c2 : Config), runActs c acts = some c2 →
      Relation.ReflTransGen Step c c2 := by
  intro acts
  induction acts with
  | nil =>
    intro c c2 h
    simp only [runActs, Option.some.injEq] at h
    exact h ▸ Relation.ReflTransGen.refl
  | cons a rest ih =>
    intro c c2 h
    unfold runActs at h
    cases hs : stepAct c a with
    | none => rw [hs] at h; cases h
    | some c1 =>
      rw [hs] at h
      exact Relation.ReflTransGen.head ⟨a, hs⟩ (ih c1 c2 h)

/-- C1: FALSIFIED ON THE CODE.  Mutual exclusion does not hold for every
execution: messages travel on independent short-lived connections read by
independent detached threads, so deliveries are not FIFO per pair, which
Lamport's algorithm requires.  In the concrete two-peer execution c1Acts —
both peers request at timestamp 1; peer 0's REQ to peer 1 is delivered
late — a configuration is reached in which both peers have passed the
grant test (do_request, process.c lines 302-306) and are simultaneously in
the GRANTED/execute phase. -/
theorem C1_mutual_exclusion_violated :
    Reachable 2 c1Final ∧
    (c1Final.peers.get? 0).map Peer.phase = some (Phase.critical 1) ∧
    (c1Final.peers.get? 1).map Peer.phase = some (Phase.critical 1) :=
  ⟨runActs_reachable c1Acts (initConfig 2) c1Final rfl, rfl, rfl⟩

/-- C2: FALSIFIED ON THE CODE.  A REQ line carrying only one number is not
dropped: the sscanf guard in process_line (line 260) only requires the type
token, so the REQ handler runs with req_lc = 5 and an indeterminate
(uninitialized) req_pid = j2.  From a fresh state it advances the clock
from 0 to 7, inserts (5, j2) into the queue, and emits an ACK addressed to
the indeterminate pid — for every possible value of the uninitialized
variables j1..j4. -/
theorem C2_short_req_line_changes_state (j1 j2 j3 j4 : Int) :
    (process_line 0 "REQ" [5] j1 j2 j3 j4 st0).1.lc = 7 ∧
    (process_line 0 "REQ" [5] j1 j2 j3 j4 st0).1.queue = [(5, j2)] ∧
    (process_line 0 "REQ" [5] j1 j2 j3 j4 st0).2 = [(j2, Msg.ack 7 0 5 j2)] :=
  ⟨rfl, rfl, rfl⟩

/-- C3: tick (inc_lc) strictly increases the clock and returns the new
value; observe (update_lc_on_receive) never decreases the clock, returns
the resulting value, sets it to r + 1 = max(c, r+1) when r >= c, and leaves
it unchanged at c when r < c. -/
theorem C3_clock_tick_observe (cl r : Int) :
    (inc_lc cl).1 = cl + 1 ∧ (inc_lc cl).2 = (inc_lc cl).1 ∧ cl < (inc_lc cl).1 ∧
    cl ≤ (update_lc_on_receive r cl).1 ∧
    (update_lc_on_receive r cl).2 = (update_lc_on_receive r cl).1 ∧
    (r ≥ cl → (update_lc_on_receive r cl).1 = r + 1 ∧
      (update_lc_on_receive r cl).1 = max cl (r + 1)) ∧
    (r < cl → (update_lc_on_receive r cl).1 = cl) := by
  unfold inc_lc update_lc_on_receive
  split_ifs with h
  · refine ⟨rfl, rfl, by omega, by omega, rfl, fun _ => ⟨rfl, ?_⟩, fun hc => absurd h (by omega)⟩
    rw [max_eq_right (by omega)]
  · exact ⟨rfl, rfl, by omega, le_refl cl, rfl, fun hc => absurd hc h, fun _ => rfl⟩

theorem C3_clock_witness :
    (update_lc_on_receive 7 5).1 = 8 ∧ (update_lc_on_receive 3 5).1 = 5 :=
  ⟨((C3_clock_tick_observe 5 7).2.2.2.2.2.1 (by decide)).1,
   (C3_clock_tick_observe 5 3).2.2.2.2.2.2 (by decide)⟩

/-- C4: immediately after the do_request ack reset (sentinel everywhere,
then self := T), all_acks_ge T holds iff N = 1: the self-ack alone
suffices only when there are no other peers, since every other entry in
[0,N) still holds the sentinel -1000000000 < 1 <= T. -/
theorem C4_ack_reset_allAtLeast (n : Nat) (t me : Int) (a : Int → Int)
    (h1 : 1 ≤ n) (h2 : n ≤ 128) (ht : 1 ≤ t) (hme0 : 0 ≤ me)
    (hmen : me < (n : Int)) :
    all_acks_ge n t (reset_acks me t n a) = decide (n = 1) := by
  by_cases hn : n = 1
  · subst hn
    have hme : me = 0 := by omega
    subst hme
    have hr : List.range 1 = [0] := rfl
    simp only [all_acks_ge, hr, List.all_cons, List.all_nil, Bool.and_true,
      decide_eq_true_eq]
    have hv : reset_acks 0 t 1 a ((0 : Nat) : Int) = t := by
      unfold reset_acks
      norm_num
    rw [hv]
    simp
  · rw [decide_eq_false hn]
    have h2n : 2 ≤ n := by omega
    by_cases hme : me = 0
    · subst hme
      refine List.all_eq_false.mpr ⟨1, List.mem_range.mpr (by omega), ?_⟩
      have hv : reset_acks 0 t n a ((1 : Nat) : Int) = -1000000000 := by
        unfold reset_acks
        rw [if_neg (by norm_num), if_pos ⟨by norm_num, by omega⟩]
      simp only [hv, decide_eq_true_eq, not_not]
      omega
    · refine List.all_eq_false.mpr ⟨0, List.mem_range.mpr (by omega), ?_⟩
      have hv : reset_acks me t n a ((0 : Nat) : Int) = -1000000000 := by
        unfold reset_acks
        rw [if_neg (by omega), if_pos ⟨by norm_num, by omega⟩]
      simp only [hv, decide_eq_true_eq, not_not]
      omega

theorem C4_ack_reset_witness :
    all_acks_ge 3 5 (reset_acks 1 5 3 (fun _ => 0)) = false :=
  C4_ack_reset_allAtLeast 3 5 1 (fun _ => 0) (by decide) (by decide) (by decide)
    (by decide) (by decide)

theorem keyLe_refl (x : Int × Int) : keyLe x x := Or.inr ⟨rfl, le_refl _⟩

theorem keyLe_trans {x y z : Int × Int} (h1 : keyLe x y) (h2 : keyLe y z) :
    keyLe x z := by
  unfold keyLe at *
  rcases h1 with h1 | ⟨h1a, h1b⟩ <;> rcases h2 with h2 | ⟨h2a, h2b⟩ <;> omega

theorem keyLe_antisymm {x y : Int × Int} (h1 : keyLe x y) (h2 : keyLe y x) :
    x = y := by
  unfold keyLe at *
  have hx1 : x.1 = y.1 := by omega
  have hx2 : x.2 = y.2 := by omega
  exact Prod.ext hx1 hx2

theorem keyLe_of_advance {e : Int × Int} {ts pid : Int}
    (h : e.1 < ts ∨ (e.1 = ts ∧ e.2 < pid)) : keyLe e (ts, pid) := by
  unfold keyLe
  rcases h with h | ⟨h1, h2⟩
  · exact Or.inl h
  · exact Or.inr ⟨h1, le_of_lt h2⟩

theorem keyLe_of_not_advance {e : Int × Int} {ts pid : Int}
    (h : ¬ (e.1 < ts ∨ (e.1 = ts ∧ e.2 < pid))) : keyLe (ts, pid) e := by
  unfold keyLe
  push_neg at h
  obtain ⟨ha, hb⟩ := h
  rcases lt_or_eq_of_le ha with h1 | h1
  · exact Or.inl h1
  · exact Or.inr ⟨h1, hb h1.symm⟩

theorem queue_insert_sorted (ts pid : Int) :
    ∀ l : List (Int × Int), l.Sorted keyLe → (queue_insert ts pid l).Sorted keyLe := by
  intro l
  induction l with
  | nil =>
    intro _
    simp [queue_insert]
  | cons e rest ih =>
    intro hs
    rw [List.sorted_cons] at hs
    obtain ⟨he, hrest⟩ := hs
    by_cases h : e.1 < ts ∨ (e.1 = ts ∧ e.2 < pid)
    · simp only [queue_insert, if_pos h]
      rw [List.sorted_cons]
      refine ⟨?_, ih hrest⟩
      intro b hb
      rcases List.mem_cons.mp ((queue_insert_perm ts pid rest).mem_iff.mp hb) with
        rfl | hb2
      · exact keyLe_of_advance h
      · exact he b hb2
    · simp only [queue_insert, if_neg h]
      rw [List.sorted_cons]
      refine ⟨?_, List.sorted_cons.mpr ⟨he, hrest⟩⟩
      intro b hb
      rcases List.mem_cons.mp hb with rfl | hb2
      · exact keyLe_of_not_advance h
      · exact keyLe_trans (keyLe_of_not_advance h) (he b hb2)

theorem queue_head_is_iff_min (ts pid : Int) (l : List (Int × Int))
    (hs : l.Sorted keyLe) :
    queue_head_is ts pid l = true ↔
      ((ts, pid) ∈ l ∧ ∀ x ∈ l, keyLe (ts, pid) x) := by
  cases l with
  | nil => simp [queue_head_is]
  | cons e rest =>
    rw [List.sorted_cons] at hs
    obtain ⟨he, -⟩ := hs
    simp only [queue_head_is, decide_eq_true_eq]
    constructor
    · rintro ⟨h1, h2⟩
      have heq : e = (ts, pid) := Prod.ext h1 h2
      subst heq
      refine ⟨List.mem_cons_self _ _, ?_⟩
      intro x hx
      rcases List.mem_cons.mp hx with rfl | hx2
      · exact keyLe_refl _
      · exact he x hx2
    · rintro ⟨hmem, hmin⟩
      rcases List.mem_cons.mp hmem with heq | hmem2
      · exact ⟨by rw [← heq], by rw [← heq]⟩
      · have h1 := he _ hmem2
        have h2 := hmin e (List.mem_cons_self e rest)
        have heq := keyLe_antisymm h1 h2
        exact ⟨by rw [heq], by rw [heq]⟩

/-- C6: on a queue sorted by ascending timestamp with ties broken by
ascending peerId, queue_insert keeps the queue so sorted and its contents
are exactly the old entries plus the new one; and queue_head_is ts pid is
true iff the queue is non-empty and its minimum element under that order
equals (ts, pid). -/
theorem C6_insert_sorted_head_min (l : List (Int × Int)) (ts pid : Int)
    (hs : l.Sorted keyLe) :
    (queue_insert ts pid l).Sorted keyLe ∧
    List.Perm (queue_insert ts pid l) ((ts, pid) :: l) ∧
    (queue_head_is ts pid l = true ↔
      ((ts, pid) ∈ l ∧ ∀ x ∈ l, keyLe (ts, pid) x)) :=
  ⟨queue_insert_sorted ts pid l hs, queue_insert_perm ts pid l,
   queue_head_is_iff_min ts pid l hs⟩

theorem C6_insert_sorted_witness :
    (queue_insert 1 3 [(1, 0), (2, 5)]).Sorted keyLe ∧
    List.Perm (queue_insert 1 3 [(1, 0), (2, 5)]) ((1, 3) :: [(1, 0), (2, 5)]) ∧
    (queue_head_is 1 3 [(1, 0), (2, 5)] = true ↔
      ((1, 3) ∈ [((1 : Int), (0 : Int)), (2, 5)] ∧
        ∀ x ∈ [((1 : Int), (0 : Int)), (2, 5)], keyLe (1, 3) x)) :=
  C6_insert_sorted_head_min [(1, 0), (2, 5)] 1 3
    (by decide)

theorem do_wait_loop_some (other seen : Int) (sigma : Nat → (Int → Int)) :
    ∀ (fuel k n : Nat), do_wait_loop other seen sigma k fuel = some n →
      k ≤ n ∧ seen < get_release_seen other (sigma n) ∧
      ∀ m, k ≤ m → m < n → get_release_seen other (sigma m) ≤ seen := by
  intro fuel
  induction fuel with
  | zero =>
    intro k n h
    simp [do_wait_loop] at h
  | succ f ih =>
    intro k n h
    unfold do_wait_loop at h
    by_cases hc : seen < get_release_seen other (sigma k)
    · rw [if_pos hc] at h
      injection h with h
      subst h
      exact ⟨le_refl _, hc,
        fun m hm1 hm2 => absurd (lt_of_le_of_lt hm1 hm2) (lt_irrefl _)⟩
    · rw [if_neg hc] at h
      obtain ⟨h1, h2, h3⟩ := ih (k + 1) n h
      refine ⟨by omega, h2, ?_⟩
      intro m hm1 hm2
      rcases Nat.eq_or_lt_of_le hm1 with rfl | hlt
      · exact le_of_not_lt hc
      · exact h3 m hlt hm2

theorem do_wait_loop_none (other seen : Int) (sigma : Nat → (Int → Int))
    (hall : ∀ j, get_release_seen other (sigma j) ≤ seen) :
    ∀ fuel k, do_wait_loop other seen sigma k fuel = none := by
  intro fuel
  induction fuel with
  | zero => intro k; rfl
  | succ f ih =>
    intro k
    unfold do_wait_loop
    rw [if_neg (not_lt.mpr (hall k)), ih]

/-- C8: do_wait snapshots the release counter of other at entry as a
baseline and never returns while a polled value is still <= that baseline:
if the loop returns after the n-th poll then that poll read a value
strictly greater than the baseline and every earlier poll read a value at
most the baseline; and if every poll only ever sees values at most the
baseline (in particular when all of other's releases happened before
entry), the loop never exits. -/
theorem C8_do_wait_strict_after (other : Int) (entry : Int → Int)
    (sigma : Nat → (Int → Int)) (fuel n : Nat) :
    (do_wait other entry sigma fuel = some n →
      get_release_seen other entry < get_release_seen other (sigma n) ∧
      ∀ m < n, get_release_seen other (sigma m) ≤ get_release_seen other entry) ∧
    ((∀ k, get_release_seen other (sigma k) ≤ get_release_seen other entry) →
      do_wait other entry sigma fuel = none) := by
  constructor
  · intro h
    obtain ⟨-, h2, h3⟩ :=
      do_wait_loop_some other (get_release_seen other entry) sigma fuel 0 n h
    exact ⟨h2, fun m hm => h3 m (Nat.zero_le m) hm⟩
  · intro hall
    exact do_wait_loop_none other (get_release_seen other entry) sigma hall fuel 0

theorem C8_do_wait_witness :
    (0 : Int) < get_release_seen 0 ((fun k => fun _ => (k : Int)) 1) ∧
    do_wait 0 (fun _ => 0) (fun _ => fun _ => (0 : Int)) 5 = none :=
  ⟨((C8_do_wait_strict_after 0 (fun _ => 0) (fun k => fun _ => (k : Int)) 5 1).1
      (by rfl)).1,
   (C8_do_wait_strict_after 0 (fun _ => 0) (fun _ => fun _ => (0 : Int)) 5 0).2
      (fun _ => le_refl _)⟩

/-- C9: handling an inbound REQ(ts, pid) observes ts and then ticks, so
the ACK sent back to pid carries a timestamp equal to the handler's final
clock and strictly greater than ts; and when the requester records that
ACK (ACK branch with for_req_pid = its own id, acker id in range), the
stored entry for the acknowledging peer equals that timestamp and hence
meets the >= ts grant threshold. -/
theorem C9_ack_exceeds_request_ts (me ts pid : Int) (st stR : PState)
    (hme0 : 0 ≤ me) (hme1 : me < MAX_PEERS) :
    (handle_req me ts pid st).2
      = [(pid, Msg.ack (handle_req me ts pid st).1.lc me ts pid)] ∧
    ts < (handle_req me ts pid st).1.lc ∧
    (handle_ack pid (handle_req me ts pid st).1.lc me pid stR).ack me
      = (handle_req me ts pid st).1.lc ∧
    ts ≤ (handle_ack pid (handle_req me ts pid st).1.lc me pid stR).ack me := by
  have hM : MAX_PEERS = 128 := rfl
  rw [hM] at hme1
  have hlc : (handle_req me ts pid st).1.lc = (update_lc_on_receive ts st.lc).1 + 1 :=
    rfl
  have hlt : ts < (handle_req me ts pid st).1.lc := by
    rw [hlc]
    unfold update_lc_on_receive
    split_ifs with h <;> omega
  have hrec : ∀ v : Int,
      (handle_ack pid v me pid stR).ack me = v := by
    intro v
    unfold handle_ack set_ack
    rw [if_pos rfl, if_neg (by rw [hM]; omega)]
    simp
  exact ⟨rfl, hlt, hrec _, by rw [hrec]; exact le_of_lt hlt⟩

theorem C9_ack_witness :
    4 < (handle_req 1 4 0 st0).1.lc ∧
    (handle_ack 0 (handle_req 1 4 0 st0).1.lc 1 0 st0).ack 1
      = (handle_req 1 4 0 st0).1.lc :=
  ⟨(C9_ack_exceeds_request_ts 1 4 0 st0 st0 (by decide) (by decide)).2.1,
   (C9_ack_exceeds_request_ts 1 4 0 st0 st0 (by decide) (by decide)).2.2.1⟩

/-- C10: for every peer id outside [0, MAX_PEERS), set_ack and
inc_release_seen return the tables unchanged and get_release_seen returns
0; and regardless of the id they are given, set_ack and inc_release_seen
never modify the table at any index outside [0, MAX_PEERS) — the
fixed-size arrays are never indexed out of bounds. -/
theorem C10_table_ops_bounds (i v : Int) (a r : Int → Int) :
    ((i < 0 ∨ MAX_PEERS ≤ i) →
      set_ack i v a = a ∧ inc_release_seen i r = r ∧ get_release_seen i r = 0) ∧
    (∀ j, (j < 0 ∨ MAX_PEERS ≤ j) →
      set_ack i v a j = a j ∧ inc_release_seen i r j = r j) := by
  have hM : MAX_PEERS = 128 := rfl
  constructor
  · intro h
    exact ⟨by unfold set_ack; rw [if_pos h],
           by unfold inc_release_seen; rw [if_pos h],
           by unfold get_release_seen; rw [if_pos h]⟩
  · intro j hj
    constructor
    · unfold set_ack
      split_ifs with hi
      · rfl
      · have hne : j ≠ i := by rw [hM] at hi hj; omega
        simp [hne]
    · unfold inc_release_seen
      split_ifs with hi
      · rfl
      · have hne : j ≠ i := by rw [hM] at hi hj; omega
        simp [hne]

theorem C10_table_ops_witness :
    set_ack 200 9 (fun _ => 0) = (fun _ => 0) ∧
    get_release_seen 200 (fun _ => 0) = 0 :=
  ⟨((C10_table_ops_bounds 200 9 (fun _ => 0) (fun _ => 0)).1 (by decide)).1,
   ((C10_table_ops_bounds 200 9 (fun _ => 0) (fun _ => 0)).1 (by decide)).2.2⟩

/-- C5 counterexample: COUNTEREXAMPLE TO THE CLAIM AS STATED.  Even with
every peer holding at most one outstanding request at a time, a reachable
state can hold two queue entries for the same peerId: in c5Acts peer 1
completes a full request/release cycle and requests again, and its REL
reaches peer 0 only after the second REQ — peer 0's queue then holds both
(1, 1) and (6, 1). -/
theorem C5_duplicate_pid_counterexample :
    Reachable 2 c5Final ∧
    ((c5Final.peers.get? 0).map fun pr => pr.st.queue) = some [(1, 1), (6, 1)] ∧
    ((c5Final.peers.get? 0).map fun pr => pr.st.queue.map Prod.snd) = some [1, 1] :=
  ⟨runActs_reachable c5Acts (initConfig 2) c5Final rfl, rfl, rfl⟩

theorem stepAct_deliver_inv {c c2 : Config} {k : Nat}
    (h : stepAct c (Act.deliver k) = some c2) :
    ∃ (dm : Int × Msg) (hd : 0 ≤ dm.1 ∧ dm.1.toNat < c.peers.length),
      c.net.get? k = some dm ∧
      c2 = { peers := c.peers.set dm.1.toNat
               { c.peers.get ⟨dm.1.toNat, hd.2⟩ with
                 st := (process_msg dm.1 dm.2 (c.peers.get ⟨dm.1.toNat, hd.2⟩).st).1 },
             net := c.net.eraseIdx k ++
               (process_msg dm.1 dm.2 (c.peers.get ⟨dm.1.toNat, hd.2⟩).st).2.filter
                 (valid_dest c.peers.length) } := by
  simp only [stepAct] at h
  split at h
  · cases h
  · rename_i dm hnk
    split at h
    · rename_i hd
      injection h with h
      exact ⟨dm, hd, hnk, h.symm⟩
    · cases h

theorem stepAct_start_inv {c c2 : Config} {p : Nat}
    (h : stepAct c (Act.start p) = some c2) :
    ∃ peer, c.peers.get? p = some peer ∧ peer.phase = Phase.idle ∧
      c2 = { peers := c.peers.set p
               { st := { peer.st with
                   lc := peer.st.lc + 1,
                   queue := queue_insert (peer.st.lc + 1) (p : Int) peer.st.queue,
                   ack := reset_acks (p : Int) (peer.st.lc + 1) c.peers.length peer.st.ack },
                 phase := Phase.waiting (peer.st.lc + 1) },
             net := c.net ++
               broadcast c.peers.length p (Msg.req (peer.st.lc + 1) (p : Int)) } := by
  simp only [stepAct] at h
  split at h
  · cases h
  · rename_i peer hnp
    split at h
    · rename_i hid
      injection h with h
      exact ⟨peer, hnp, hid, h.symm⟩
    · cases h

theorem stepAct_enter_inv {c c2 : Config} {p : Nat}
    (h : stepAct c (Act.enter p) = some c2) :
    ∃ peer ts, c.peers.get? p = some peer ∧ peer.phase = Phase.waiting ts ∧
      c2 = { c with peers := c.peers.set p { peer with phase := Phase.critical ts } } := by
  simp only [stepAct] at h
  split at h
  · cases h
  · rename_i peer hnp
    split at h
    · rename_i ts hph
      split at h
      · injection h with h
        exact ⟨peer, ts, hnp, hph, h.symm⟩
      · cases h
    · cases h

theorem stepAct_free_inv {c c2 : Config} {p : Nat}
    (h : stepAct c (Act.free p) = some c2) :
    ∃ peer ts, c.peers.get? p = some peer ∧ peer.phase = Phase.critical ts ∧
      c2 = { peers := c.peers.set p
               { st := { peer.st with
                   lc := peer.st.lc + 1,
                   queue := queue_remove ts (p : Int) peer.st.queue,
                   rel := inc_release_seen (p : Int) peer.st.rel },
                 phase := Phase.idle },
             net := c.net ++
               broadcast c.peers.length p (Msg.rel (peer.st.lc + 1) ts (p : Int)) } := by
  simp only [stepAct] at h
  split at h
  · cases h
  · rename_i peer hnp
    split at h
    · rename_i ts hph
      injection h with h
      exact ⟨peer, ts, hnp, hph, h.symm⟩
    · cases h

theorem stepAct_sendHello_inv {c c2 : Config} {p q : Nat}
    (h : stepAct c (Act.sendHello p q) = some c2) :
    c2 = { c with net := c.net ++ [((q : Int), Msg.hello (p : Int))] } := by
  simp only [stepAct] at h
  split at h
  · injection h with h
    exact h.symm
  · cases h

theorem process_msg_queue (me : Int) (m : Msg) (st : PState) :
    (process_msg me m st).1.queue
      = match m with
        | .req ts pid => queue_insert ts pid st.queue
        | .rel _ b cc => queue_remove b cc st.queue
        | _ => st.queue := by
  cases m with
  | hello _ => rfl
  | req ts pid => rfl
  | ack a b cc d =>
    show (handle_ack me a b d st).queue = st.queue
    unfold handle_ack
    split_ifs <;> rfl
  | rel a b cc => rfl

theorem process_msg_lc_mono (me : Int) (m : Msg) (st : PState) :
    st.lc ≤ (process_msg me m st).1.lc := by
  cases m with
  | hello _ => exact le_refl _
  | req ts pid =>
    show st.lc ≤ (update_lc_on_receive ts st.lc).1 + 1
    unfold update_lc_on_receive
    split_ifs <;> omega
  | ack a b cc d =>
    show st.lc ≤ (handle_ack me a b d st).lc
    unfold handle_ack update_lc_on_receive
    split_ifs <;> simp <;> omega
  | rel a b cc =>
    show st.lc ≤ (update_lc_on_receive a st.lc).1
    unfold update_lc_on_receive
    split_ifs <;> omega

theorem process_msg_outs (me : Int) (m : Msg) (st : PState) :
    (process_msg me m st).2
      = match m with
        | .req ts pid =>
            [(pid, Msg.ack ((update_lc_on_receive ts st.lc).1 + 1) me ts pid)]
        | _ => [] := by
  cases m <;> rfl

theorem outs_no_req (me : Int) (m : Msg) (st : PState) {dm : Int × Msg}
    (hmem : dm ∈ (process_msg me m st).2) :
    ∃ a b cc d, dm.2 = Msg.ack a b cc d := by
  rw [process_msg_outs] at hmem
  cases m with
  | req ts pid =>
    simp only [List.mem_singleton] at hmem
    exact ⟨_, _, _, _, by rw [hmem]⟩
  | hello _ => simp at hmem
  | ack a b cc d => simp at hmem
  | rel a b cc => simp at hmem

theorem perm_cons_eraseIdx {α : Type} :
    ∀ (l : List α) (k : Nat) (h : k < l.length),
      List.Perm l (l.get ⟨k, h⟩ :: l.eraseIdx k) := by
  intro l
  induction l with
  | nil => intro k h; simp at h
  | cons a t ih =>
    intro k h
    cases k with
    | zero => exact List.Perm.refl _
    | succ k =>
      have h2 : k < t.length := by simpa using h
      exact ((ih k h2).cons a).trans (List.Perm.swap _ _ _)

theorem cnt_append {α : Type} [DecidableEq α] (x : α) (l1 l2 : List α) :
    cnt x (l1 ++ l2) = cnt x l1 + cnt x l2 := by
  induction l1 with
  | nil => simp [cnt]
  | cons y t ih => simp [cnt, ih]; omega

theorem cnt_eq_zero {α : Type} [DecidableEq α] {x : α} {l : List α} :
    cnt x l = 0 ↔ x ∉ l := by
  induction l with
  | nil => simp [cnt]
  | cons y t ih =>
    by_cases hy : y = x
    · subst hy
      simp [cnt]
    · have hxy : ¬ x = y := fun e => hy e.symm
      simp [cnt, hy, ih, List.mem_cons, hxy]

theorem one_le_cnt_of_mem {α : Type} [DecidableEq α] {x : α} {l : List α}
    (h : x ∈ l) : 1 ≤ cnt x l := by
  rcases Nat.eq_zero_or_pos (cnt x l) with h0 | h1
  · exact absurd (cnt_eq_zero.mp h0) (not_not_intro h)
  · exact h1

theorem cnt_perm {α : Type} [DecidableEq α] {l1 l2 : List α}
    (h : List.Perm l1 l2) (x : α) : cnt x l1 = cnt x l2 := by
  induction h with
  | nil => rfl
  | cons y _ ih => simp [cnt, ih]
  | swap y z l => simp [cnt]; omega
  | trans _ _ ih1 ih2 => rw [ih1, ih2]

theorem cnt_sublist {α : Type} [DecidableEq α] {l1 l2 : List α}
    (h : l1.Sublist l2) (x : α) : cnt x l1 ≤ cnt x l2 := by
  induction h with
  | slnil => exact le_refl _
  | cons y _ ih => simp only [cnt]; omega
  | cons₂ y _ ih => simp only [cnt]; omega

theorem cnt_of_nodup {α : Type} [DecidableEq α] {l : List α} (h : l.Nodup)
    (x : α) : cnt x l = if x ∈ l then 1 else 0 := by
  induction l with
  | nil => simp [cnt]
  | cons y t ih =>
    obtain ⟨hy, ht⟩ := List.nodup_cons.mp h
    by_cases hx : y = x
    · subst hx
      have : cnt y t = 0 := cnt_eq_zero.mpr hy
      simp [cnt, this]
    · have hxy : ¬ x = y := fun e => hx e.symm
      simp [cnt, hx, ih ht, List.mem_cons, hxy]

theorem nodup_of_cnt_le_one {α : Type} [DecidableEq α] {l : List α}
    (h : ∀ x, cnt x l ≤ 1) : l.Nodup := by
  induction l with
  | nil => exact List.nodup_nil
  | cons y t ih =>
    refine List.nodup_cons.mpr ⟨?_, ih fun x => ?_⟩
    · intro hy
      have h1 := one_le_cnt_of_mem hy
      have h2 := h y
      simp [cnt] at h2
      omega
    · have h2 := h x
      simp only [cnt] at h2
      omega

theorem cnt_map_inj {α β : Type} [DecidableEq α] [DecidableEq β] {f : α → β}
    (hf : Function.Injective f) (x : α) (l : List α) :
    cnt (f x) (l.map f) = cnt x l := by
  induction l with
  | nil => rfl
  | cons y t ih =>
    by_cases hy : y = x
    · subst hy
      simp [cnt, ih]
    · have : f y ≠ f x := fun e => hy (hf e)
      simp [cnt, hy, this, ih]

theorem cnt_eraseIdx_add {α : Type} [DecidableEq α] (l : List α) (k : Nat)
    (h : k < l.length) (x : α) :
    cnt x l = cnt x (l.eraseIdx k) + (if l.get ⟨k, h⟩ = x then 1 else 0) := by
  rw [cnt_perm (perm_cons_eraseIdx l k h) x]
  simp only [cnt]
  omega

theorem queue_cnt_insert (ts pid : Int) (l : List (Int × Int)) (a : Int × Int) :
    cnt a (queue_insert ts pid l)
      = cnt a l + (if (ts, pid) = a then 1 else 0) := by
  rw [cnt_perm (queue_insert_perm ts pid l) a]
  simp only [cnt]
  omega

theorem mem_broadcast_snd {nn p : Nat} {m : Msg} {dm : Int × Msg}
    (h : dm ∈ broadcast nn p m) : dm.2 = m := by
  unfold broadcast at h
  obtain ⟨j, -, hje⟩ := List.mem_map.mp h
  rw [← hje]

theorem cnt_broadcast (nn p : Nat) (m : Msg) (i : Nat) (m2 : Msg) :
    cnt ((i : Int), m2) (broadcast nn p m)
      = if m2 = m ∧ i < nn ∧ i ≠ p then 1 else 0 := by
  by_cases hm : m2 = m
  · subst hm
    unfold broadcast
    have hinj : Function.Injective (fun j : Nat => ((j : Int), m2)) := by
      intro x y hxy
      simpa using hxy
    rw [show ((i : Int), m2) = (fun j : Nat => ((j : Int), m2)) i from rfl,
      cnt_map_inj hinj]
    rw [cnt_of_nodup (List.Nodup.filter _ (List.nodup_range nn))]
    simp only [List.mem_filter, List.mem_range, decide_eq_true_eq]
    by_cases hi : i < nn ∧ i ≠ p
    · simp [hi]
    · simp [hi]
  · rw [if_neg (by tauto)]
    apply cnt_eq_zero.mpr
    intro hmem
    exact hm (mem_broadcast_snd hmem)

theorem sysInv_init (n : Nat) : SysInv (initConfig n) := by
  constructor
  · intro ts pid hk
    rcases hk with ⟨d, hd⟩ | ⟨pr, hpr, hmem⟩
    · simp [initConfig] at hd
    · have hpr2 : pr = initPeer := List.eq_of_mem_replicate hpr
      subst hpr2
      simp [initPeer] at hmem
  · intro i pr hget ts pid
    have hpr2 : pr = initPeer := List.eq_of_mem_replicate (List.get?_mem hget)
    subst hpr2
    have h1 : cnt ((i : Int), Msg.req ts pid) (initConfig n).net = 0 := rfl
    have h2 : cnt (ts, pid) initPeer.st.queue = 0 := rfl
    omega

theorem sysInv_deliver {c c2 : Config} {k : Nat} (hI : SysInv c)
    (h : stepAct c (Act.deliver k) = some c2) : SysInv c2 := by
  obtain ⟨dm, hd, hget, hc2⟩ := stepAct_deliver_inv h
  obtain ⟨d1, m⟩ := dm
  subst hc2
  obtain ⟨hlen, hgetk⟩ := List.get?_eq_some.mp hget
  have hgp : c.peers.get? d1.toNat = some (c.peers.get ⟨d1.toNat, hd.2⟩) :=
    List.get?_eq_get hd.2
  have hcast : ((d1.toNat : Nat) : Int) = d1 := Int.toNat_of_nonneg hd.1
  have hmemnet : (d1, m) ∈ c.net := List.get?_mem hget
  have hqc : ∀ ts pid : Int,
      cnt (ts, pid) (process_msg d1 m (c.peers.get ⟨d1.toNat, hd.2⟩).st).1.queue
        ≤ cnt (ts, pid) (c.peers.get ⟨d1.toNat, hd.2⟩).st.queue
          + (if m = Msg.req ts pid then 1 else 0) := by
    intro ts pid
    rw [process_msg_queue]
    cases m with
    | hello x => exact Nat.le_add_right _ _
    | ack a b cc d => exact Nat.le_add_right _ _
    | rel a b cc =>
      exact le_trans (cnt_sublist (queue_remove_sublist b cc _) _)
        (Nat.le_add_right _ _)
    | req ts0 pid0 =>
      rw [queue_cnt_insert]
      simp only [Prod.mk.injEq, Msg.req.injEq]
      split_ifs with h1 <;> omega
  have hqmem : ∀ ts pid : Int,
      (ts, pid) ∈ (process_msg d1 m (c.peers.get ⟨d1.toNat, hd.2⟩).st).1.queue →
        (ts, pid) ∈ (c.peers.get ⟨d1.toNat, hd.2⟩).st.queue ∨ m = Msg.req ts pid := by
    intro ts pid hmem
    rw [process_msg_queue] at hmem
    cases m with
    | hello x => exact Or.inl hmem
    | ack a b cc d => exact Or.inl hmem
    | rel a b cc => exact Or.inl ((queue_remove_sublist b cc _).subset hmem)
    | req ts0 pid0 =>
      rcases List.mem_cons.mp ((queue_insert_perm ts0 pid0 _).mem_iff.mp hmem) with
        he | he
      · right
        simp only [Prod.mk.injEq] at he
        rw [he.1, he.2]
      · exact Or.inl he
  constructor
  · -- Fresh
    intro ts pid hk
    have hkc : KeyIn c ts pid := by
      rcases hk with ⟨d, hdmem⟩ | ⟨pr, hpr, hmem⟩
      · rcases List.mem_append.mp hdmem with h1 | h1
        · exact Or.inl ⟨d, (List.eraseIdx_sublist c.net k).subset h1⟩
        · exfalso
          have hm2 := (List.mem_filter.mp h1).1
          obtain ⟨a, b, cc, dd, hackk⟩ := outs_no_req d1 m _ hm2
          simp at hackk
      · rcases List.mem_or_eq_of_mem_set hpr with h1 | h1
        · exact Or.inr ⟨pr, h1, hmem⟩
        · subst h1
          rcases hqmem ts pid hmem with h2 | h2
          · exact Or.inr ⟨_, List.get_mem c.peers _ _, h2⟩
          · exact Or.inl ⟨d1, by rw [← h2]; exact hmemnet⟩
    obtain ⟨pr0, hpr0, hpid0, hle⟩ := hI.1 ts pid hkc
    by_cases hpp : pid.toNat = d1.toNat
    · refine ⟨_, by rw [hpp]; exact List.get?_set_eq_of_lt _ hd.2, hpid0, ?_⟩
      have hpr0eq : pr0 = c.peers.get ⟨d1.toNat, hd.2⟩ := by
        rw [hpp] at hpr0
        exact Option.some.inj (hpr0.symm.trans hgp)
      subst hpr0eq
      exact le_trans hle (process_msg_lc_mono d1 m _)
    · exact ⟨pr0, by rw [List.get?_set_ne _ _ (fun e => hpp e.symm)]; exact hpr0,
        hpid0, hle⟩
  · -- AtMostOne
    intro i pr hget2 ts pid
    rw [cnt_append]
    have hF : cnt ((i : Int), Msg.req ts pid)
        ((process_msg d1 m (c.peers.get ⟨d1.toNat, hd.2⟩).st).2.filter
          (valid_dest c.peers.length)) = 0 := by
      apply cnt_eq_zero.mpr
      intro hmem
      have hm2 := (List.mem_filter.mp hmem).1
      obtain ⟨a, b, cc, dd, hackk⟩ := outs_no_req d1 m _ hm2
      simp at hackk
    rw [hF]
    have hE : cnt ((i : Int), Msg.req ts pid) c.net
        = cnt ((i : Int), Msg.req ts pid) (c.net.eraseIdx k)
          + (if ((d1, m) : Int × Msg) = ((i : Int), Msg.req ts pid) then 1 else 0) := by
      rw [cnt_eraseIdx_add c.net k hlen, hgetk]
    by_cases hii : i = d1.toNat
    · subst hii
      have hpr : pr = { c.peers.get ⟨d1.toNat, hd.2⟩ with
          st := (process_msg d1 m (c.peers.get ⟨d1.toNat, hd.2⟩).st).1 } := by
        rw [List.get?_set_eq_of_lt _ hd.2] at hget2
        exact (Option.some.inj hget2).symm
      have hqgoal : cnt (ts, pid) pr.st.queue
          = cnt (ts, pid)
              (process_msg d1 m (c.peers.get ⟨d1.toNat, hd.2⟩).st).1.queue := by
        rw [hpr]
      rw [hqgoal]
      have hold := hI.2 d1.toNat _ hgp ts pid
      have hq := hqc ts pid
      have hiff : (((d1, m) : Int × Msg) = (((d1.toNat : Nat) : Int), Msg.req ts pid))
          ↔ m = Msg.req ts pid := by
        constructor
        · intro he
          exact ((Prod.mk.injEq _ _ _ _).mp he).2
        · intro he
          rw [he, hcast]
      by_cases hm : m = Msg.req ts pid
      · rw [if_pos (hiff.mpr hm)] at hE
        rw [if_pos hm] at hq
        omega
      · rw [if_neg (fun he => hm (hiff.mp he))] at hE
        rw [if_neg hm] at hq
        omega
    · have hget2b : c.peers.get? i = some pr := by
        rw [List.get?_set_ne _ _ (fun e => hii e.symm)] at hget2
        exact hget2
      have hold := hI.2 i pr hget2b ts pid
      have hle2 : cnt ((i : Int), Msg.req ts pid) (c.net.eraseIdx k)
          ≤ cnt ((i : Int), Msg.req ts pid) c.net := by
        rw [hE]
        split_ifs <;> omega
      omega

theorem sysInv_start {c c2 : Config} {p : Nat} (hI : SysInv c)
    (h : stepAct c (Act.start p) = some c2) : SysInv c2 := by
  obtain ⟨peer, hgp, -, hc2⟩ := stepAct_start_inv h
  subst hc2
  have hplen : p < c.peers.length := (List.get?_eq_some.mp hgp).1
  have hpcast : ((p : Int)).toNat = p := Int.toNat_natCast p
  have hfresh : ¬ KeyIn c (peer.st.lc + 1) (p : Int) := by
    intro hk
    obtain ⟨pr0, hpr0, -, hle⟩ := hI.1 _ _ hk
    rw [hpcast, hgp] at hpr0
    obtain rfl := Option.some.inj hpr0
    omega
  constructor
  · -- Fresh
    intro ts pid hk
    have hsrc : KeyIn c ts pid ∨ (ts = peer.st.lc + 1 ∧ pid = (p : Int)) := by
      rcases hk with ⟨d, hdmem⟩ | ⟨pr, hpr, hmem⟩
      · rcases List.mem_append.mp hdmem with h1 | h1
        · exact Or.inl (Or.inl ⟨d, h1⟩)
        · have h2 := mem_broadcast_snd h1
          simp only [Msg.req.injEq] at h2
          exact Or.inr h2
      · rcases List.mem_or_eq_of_mem_set hpr with h1 | h1
        · exact Or.inl (Or.inr ⟨pr, h1, hmem⟩)
        · subst h1
          replace hmem : (ts, pid)
              ∈ queue_insert (peer.st.lc + 1) (p : Int) peer.st.queue := hmem
          rcases List.mem_cons.mp
              ((queue_insert_perm (peer.st.lc + 1) (p : Int) _).mem_iff.mp hmem) with
            he | he
          · right
            simpa using he
          · exact Or.inl (Or.inr ⟨peer, List.get?_mem hgp, he⟩)
    rcases hsrc with hold | ⟨rfl, rfl⟩
    · obtain ⟨pr0, hpr0, hpid0, hle⟩ := hI.1 ts pid hold
      by_cases hpp : pid.toNat = p
      · rw [hpp] at hpr0
        rw [hgp] at hpr0
        obtain rfl := Option.some.inj hpr0
        refine ⟨_, by rw [hpp]; exact List.get?_set_eq_of_lt _ hplen, hpid0, ?_⟩
        show ts ≤ peer.st.lc + 1
        omega
      · exact ⟨pr0, by rw [List.get?_set_ne _ _ (fun e => hpp e.symm)]; exact hpr0,
          hpid0, hle⟩
    · refine ⟨_, by rw [hpcast]; exact List.get?_set_eq_of_lt _ hplen,
        Int.natCast_nonneg p, ?_⟩
      show peer.st.lc + 1 ≤ peer.st.lc + 1
      omega
  · -- AtMostOne
    intro i pr hget2 ts pid
    rw [cnt_append]
    have hilen : i < c.peers.length := by
      have h1 := (List.get?_eq_some.mp hget2).1
      rw [List.length_set] at h1
      exact h1
    have hBC := cnt_broadcast c.peers.length p (Msg.req (peer.st.lc + 1) (p : Int))
      i (Msg.req ts pid)
    by_cases hkey : ts = peer.st.lc + 1 ∧ pid = (p : Int)
    · obtain ⟨rfl, rfl⟩ := hkey
      have hnet0 : cnt ((i : Int), Msg.req (peer.st.lc + 1) (p : Int)) c.net = 0 :=
        cnt_eq_zero.mpr fun hm => hfresh (Or.inl ⟨_, hm⟩)
      by_cases hip : i = p
      · subst hip
        have hpr : pr = started_peer i c.peers.length peer := by
          rw [List.get?_set_eq_of_lt _ hplen] at hget2
          exact (Option.some.inj hget2).symm
        have hq : cnt ((peer.st.lc + 1 : Int), (i : Int)) pr.st.queue
            = cnt ((peer.st.lc + 1 : Int), (i : Int))
                (queue_insert (peer.st.lc + 1) (i : Int) peer.st.queue) := by
          rw [hpr]; rfl
        have hq0 : cnt ((peer.st.lc + 1 : Int), (i : Int)) peer.st.queue = 0 :=
          cnt_eq_zero.mpr fun hm =>
            hfresh (Or.inr ⟨peer, List.get?_mem hgp, hm⟩)
        rw [hq, queue_cnt_insert, if_pos rfl, hq0, hnet0, hBC,
          if_neg (by simp)]
      · have hget2b : c.peers.get? i = some pr := by
          rw [List.get?_set_ne _ _ (fun e => hip e.symm)] at hget2
          exact hget2
        have hq0 : cnt ((peer.st.lc + 1 : Int), (p : Int)) pr.st.queue = 0 :=
          cnt_eq_zero.mpr fun hm =>
            hfresh (Or.inr ⟨pr, List.get?_mem hget2b, hm⟩)
        rw [hq0, hnet0, hBC, if_pos ⟨rfl, hilen, hip⟩]
    · have hmne : Msg.req ts pid ≠ Msg.req (peer.st.lc + 1) (p : Int) := by
        intro he
        simp only [Msg.req.injEq] at he
        exact hkey he
      rw [hBC, if_neg (by tauto)]
      by_cases hip : i = p
      · subst hip
        have hpr : pr = started_peer i c.peers.length peer := by
          rw [List.get?_set_eq_of_lt _ hplen] at hget2
          exact (Option.some.inj hget2).symm
        have hq : cnt (ts, pid) pr.st.queue
            = cnt (ts, pid)
                (queue_insert (peer.st.lc + 1) (i : Int) peer.st.queue) := by
          rw [hpr]; rfl
        have hkne : ((peer.st.lc + 1 : Int), (i : Int)) ≠ (ts, pid) := by
          intro he
          simp only [Prod.mk.injEq] at he
          exact hkey ⟨he.1.symm, he.2.symm⟩
        rw [hq, queue_cnt_insert, if_neg hkne]
        have hold := hI.2 i peer hgp ts pid
        omega
      · have hget2b : c.peers.get? i = some pr := by
          rw [List.get?_set_ne _ _ (fun e => hip e.symm)] at hget2
          exact hget2
        have hold := hI.2 i pr hget2b ts pid
        omega

theorem sysInv_enter {c c2 : Config} {p : Nat} (hI : SysInv c)
    (h : stepAct c (Act.enter p) = some c2) : SysInv c2 := by
  obtain ⟨peer, ts0, hgp, -, hc2⟩ := stepAct_enter_inv h
  subst hc2
  have hplen : p < c.peers.length := (List.get?_eq_some.mp hgp).1
  constructor
  · intro ts pid hk
    have hkc : KeyIn c ts pid := by
      rcases hk with ⟨d, hdmem⟩ | ⟨pr, hpr, hmem⟩
      · exact Or.inl ⟨d, hdmem⟩
      · rcases List.mem_or_eq_of_mem_set hpr with h1 | h1
        · exact Or.inr ⟨pr, h1, hmem⟩
        · subst h1
          exact Or.inr ⟨peer, List.get?_mem hgp, hmem⟩
    obtain ⟨pr0, hpr0, hpid0, hle⟩ := hI.1 ts pid hkc
    by_cases hpp : pid.toNat = p
    · rw [hpp] at hpr0
      rw [hgp] at hpr0
      obtain rfl := Option.some.inj hpr0
      exact ⟨{ peer with phase := Phase.critical ts0 },
        by rw [hpp]; exact List.get?_set_eq_of_lt _ hplen, hpid0, hle⟩
    · exact ⟨pr0, by rw [List.get?_set_ne _ _ (fun e => hpp e.symm)]; exact hpr0,
        hpid0, hle⟩
  · intro i pr hget2 ts pid
    by_cases hip : i = p
    · subst hip
      have hpr : pr = { peer with phase := Phase.critical ts0 } := by
        rw [List.get?_set_eq_of_lt _ hplen] at hget2
        exact (Option.some.inj hget2).symm
      have hq : cnt (ts, pid) pr.st.queue = cnt (ts, pid) peer.st.queue := by
        rw [hpr]
      rw [hq]
      exact hI.2 i peer hgp ts pid
    · have hget2b : c.peers.get? i = some pr := by
        rw [List.get?_set_ne _ _ (fun e => hip e.symm)] at hget2
        exact hget2
      exact hI.2 i pr hget2b ts pid

theorem sysInv_free {c c2 : Config} {p : Nat} (hI : SysInv c)
    (h : stepAct c (Act.free p) = some c2) : SysInv c2 := by
  obtain ⟨peer, ts0, hgp, -, hc2⟩ := stepAct_free_inv h
  subst hc2
  have hplen : p < c.peers.length := (List.get?_eq_some.mp hgp).1
  constructor
  · intro ts pid hk
    have hkc : KeyIn c ts pid := by
      rcases hk with ⟨d, hdmem⟩ | ⟨pr, hpr, hmem⟩
      · rcases List.mem_append.mp hdmem with h1 | h1
        · exact Or.inl ⟨d, h1⟩
        · have h2 := mem_broadcast_snd h1
          simp at h2
      · rcases List.mem_or_eq_of_mem_set hpr with h1 | h1
        · exact Or.inr ⟨pr, h1, hmem⟩
        · subst h1
          replace hmem : (ts, pid)
              ∈ queue_remove ts0 (p : Int) peer.st.queue := hmem
          exact Or.inr ⟨peer, List.get?_mem hgp,
            (queue_remove_sublist ts0 (p : Int) _).subset hmem⟩
    obtain ⟨pr0, hpr0, hpid0, hle⟩ := hI.1 ts pid hkc
    by_cases hpp : pid.toNat = p
    · rw [hpp] at hpr0
      rw [hgp] at hpr0
      obtain rfl := Option.some.inj hpr0
      refine ⟨_, by rw [hpp]; exact List.get?_set_eq_of_lt _ hplen, hpid0, ?_⟩
      show ts ≤ peer.st.lc + 1
      omega
    · exact ⟨pr0, by rw [List.get?_set_ne _ _ (fun e => hpp e.symm)]; exact hpr0,
        hpid0, hle⟩
  · intro i pr hget2 ts pid
    rw [cnt_append]
    have hBC := cnt_broadcast c.peers.length p (Msg.rel (peer.st.lc + 1) ts0 (p : Int))
      i (Msg.req ts pid)
    rw [hBC, if_neg (by simp)]
    by_cases hip : i = p
    · subst hip
      have hpr : pr = freed_peer i ts0 peer := by
        rw [List.get?_set_eq_of_lt _ hplen] at hget2
        exact (Option.some.inj hget2).symm
      have hq : cnt (ts, pid) pr.st.queue
          = cnt (ts, pid) (queue_remove ts0 (i : Int) peer.st.queue) := by
        rw [hpr]; rfl
      rw [hq]
      have hsub := cnt_sublist (queue_remove_sublist ts0 (i : Int) peer.st.queue)
        (ts, pid)
      have hold := hI.2 i peer hgp ts pid
      omega
    · have hget2b : c.peers.get? i = some pr := by
        rw [List.get?_set_ne _ _ (fun e => hip e.symm)] at hget2
        exact hget2
      have hold := hI.2 i pr hget2b ts pid
      omega

theorem sysInv_sendHello {c c2 : Config} {p q : Nat} (hI : SysInv c)
    (h : stepAct c (Act.sendHello p q) = some c2) : SysInv c2 := by
  have hc2 := stepAct_sendHello_inv h
  subst hc2
  constructor
  · intro ts pid hk
    have hkc : KeyIn c ts pid := by
      rcases hk with ⟨d, hdmem⟩ | ⟨pr, hpr, hmem⟩
      · rcases List.mem_append.mp hdmem with h1 | h1
        · exact Or.inl ⟨d, h1⟩
        · simp at h1
      · exact Or.inr ⟨pr, hpr, hmem⟩
    exact hI.1 ts pid hkc
  · intro i pr hget2 ts pid
    rw [cnt_append]
    have h0 : cnt ((i : Int), Msg.req ts pid) [((q : Int), Msg.hello (p : Int))] = 0 := by
      simp [cnt]
    rw [h0]
    exact hI.2 i pr hget2 ts pid

theorem sysInv_step {c c2 : Config} (hI : SysInv c) (h : Step c c2) : SysInv c2 := by
  obtain ⟨a, ha⟩ := h
  cases a with
  | deliver k => exact sysInv_deliver hI ha
  | start p => exact sysInv_start hI ha
  | enter p => exact sysInv_enter hI ha
  | free p => exact sysInv_free hI ha
  | sendHello p q => exact sysInv_sendHello hI ha

theorem sysInv_reachable {n : Nat} {c : Config} (h : Reachable n c) : SysInv c := by
  unfold Reachable at h
  induction h with
  | refl => exact sysInv_init n
  | tail hsteps hstep ih => exact sysInv_step ih hstep

/-- C5 (amended): in every state reachable by the protocol operations from
the N-peer startup state — with each peer issuing at most one outstanding
request at a time, as the phase machine enforces — no two entries of any
peer's request queue share the same (timestamp, peerId) key.  (The stronger
claim, at most one entry per peerId, fails: a release delivered after a
later request from the same peer leaves two differently-timestamped entries
for it, as the counterexample execution above shows.) -/
theorem C5_queue_key_unique (n : Nat) (c : Config) (h : Reachable n c) :
    ∀ pr ∈ c.peers, pr.st.queue.Nodup := by
  have hinv := sysInv_reachable h
  intro pr hpr
  obtain ⟨i, hi⟩ := List.get?_of_mem hpr
  apply nodup_of_cnt_le_one
  intro a
  obtain ⟨a1, a2⟩ := a
  have h2 := hinv.2 i pr hi a1 a2
  omega

theorem C5_queue_key_unique_witness :
    (cW.peers.getD 0 initPeer).st.queue.Nodup :=
  C5_queue_key_unique 2 cW
    (runActs_reachable [Act.start 0] (initConfig 2) cW rfl)
    (cW.peers.getD 0 initPeer)
    (@List.get?_mem Peer cW.peers 0 (cW.peers.getD 0 initPeer) (by rfl))
